import Mathlib

/-!
Shallow embedding of the dura status/config subsystem
(src/config.rs, src/database.rs, src/repo_status.rs).

Strings from the Rust source are modelled as lists of characters
(so that all operations compute by structural recursion), machine
integers as Nat/Int, BTreeMap as a key-sorted association list,
and every fallible operation as Option/Except.
-/

namespace Dura

/-- Model of Rust String: a list of characters, so that comparisons and
prefix tests reduce by structural recursion. -/
abbrev Str := List Char

/-- Model of str::starts_with on character lists. -/
def startsWithL : Str → Str → Bool
  | _, [] => true
  | [], _ :: _ => false
  | c :: cs, d :: ds => c = d && startsWithL cs ds

/-- Lexicographic strict order on character lists, the ordering BTreeMap
uses for its String keys. -/
def ltL : Str → Str → Bool
  | [], [] => false
  | [], _ :: _ => true
  | _ :: _, [] => false
  | c :: cs, d :: ds => decide (c < d) || (c = d && ltL cs ds)

/-- Association-list lookup, modelling BTreeMap::get / map indexing. -/
def lookupKey {α β : Type} [DecidableEq α] : List (α × β) → α → Option β
  | [], _ => none
  | (k, v) :: rest, k2 => if k = k2 then some v else lookupKey rest k2

/-- Key-membership test, modelling BTreeMap::contains_key. -/
def containsKey {β : Type} (m : List (Str × β)) (k : Str) : Bool :=
  m.any (fun p => p.1 = k)

/-- Ordered insert, modelling BTreeMap::insert on the sorted entry list
(replaces the value when the key is already present). -/
def btInsert {β : Type} (k : Str) (v : β) : List (Str × β) → List (Str × β)
  | [] => [(k, v)]
  | (k2, v2) :: rest =>
    if ltL k k2 then (k, v) :: (k2, v2) :: rest
    else if k = k2 then (k, v) :: rest
    else (k2, v2) :: btInsert k v rest

/-- Key removal, modelling BTreeMap::remove on the sorted entry list. -/
def btRemove {β : Type} (k : Str) : List (Str × β) → List (Str × β)
  | [] => []
  | (k2, v2) :: rest => if k = k2 then rest else (k2, v2) :: btRemove k rest

/-- Keys of an association list are pairwise distinct (BTreeMap invariant). -/
def nodupKeys {β : Type} (m : List (Str × β)) : Prop :=
  List.Pairwise (fun a b => a.1 ≠ b.1) m

/-- Keys of an association list are strictly sorted (BTreeMap invariant,
iteration order of a BTreeMap). -/
def sortedKeys {β : Type} (m : List (Str × β)) : Prop :=
  List.Pairwise (fun a b => ltL a.1 b.1 = true) m

/-- WatchConfig from src/config.rs: include and exclude glob patterns and
a max_depth : u8 bound (the Rust field include is a keyword in Lean and is
written include_ here). -/
structure WatchConfig where
  include_ : List Str
  exclude : List Str
  max_depth : Fin 256
deriving DecidableEq

/-- WatchConfig::new from src/config.rs. -/
def WatchConfig.new : WatchConfig :=
  { include_ := [], exclude := [], max_depth := 255 }

/-- Config from src/config.rs. The repos BTreeMap<String, Rc<WatchConfig>>
is modelled as its sorted entry list; Rc is transparent to the model. -/
structure Config where
  commit_exclude_git_config : Bool
  commit_author : Option Str
  commit_email : Option Str
  repos : List (Str × WatchConfig)
deriving DecidableEq

/-- Config::empty from src/config.rs. -/
def Config.empty : Config :=
  { commit_exclude_git_config := false
  , commit_author := none
  , commit_email := none
  , repos := [] }

/-- Config::load_file from src/config.rs: File::open of the path (the file
contents are modelled as an optional string, none when the file is missing
or unreadable) followed by a TOML parse (modelled as an abstract parse
function, none on malformed input). Either failure is an error. -/
def Config.load_file (file : Option Str) (parse : Str → Option Config) :
    Except Unit Config :=
  match file with
  | none => Except.error ()
  | some s =>
    match parse s with
    | some c => Except.ok c
    | none => Except.error ()

/-- Config::load from src/config.rs:
load_file(default_path).unwrap_or_else(Config::empty). -/
def Config.load (file : Option Str) (parse : Str → Option Config) : Config :=
  match Config.load_file file parse with
  | Except.ok c => c
  | Except.error _ => Config.empty

/-- Config::set_watch from src/config.rs. fs::canonicalize is modelled as
an abstract function canon (none when canonicalization fails, where the
Rust code panics via expect, modelled as an overall none result). When the
canonical path is already a key the map is left untouched; otherwise the
settings are inserted under the canonical path. -/
def Config.set_watch (canon : Str → Option Str) (c : Config) (path : Str)
    (cfg : WatchConfig) : Option Config :=
  match canon path with
  | none => none
  | some abs =>
    if containsKey c.repos abs then some c
    else some { c with repos := btInsert abs cfg c.repos }

/-- Config::set_unwatch from src/config.rs: removes the entry keyed by the
canonicalized path (BTreeMap::remove; removing an absent key changes
nothing). -/
def Config.set_unwatch (canon : Str → Option Str) (c : Config) (path : Str) :
    Option Config :=
  match canon path with
  | none => none
  | some abs => some { c with repos := btRemove abs c.repos }

/-- RuntimeLock from src/database.rs. SystemTime values are modelled as
whole seconds since the epoch (Nat); pids as Nat. -/
structure RuntimeLock where
  pid : Option Nat
  start_time : Option Nat
deriving DecidableEq

/-- RuntimeLock::empty from src/database.rs. -/
def RuntimeLock.empty : RuntimeLock := { pid := none, start_time := none }

/-- RuntimeLock::load_file from src/database.rs: File::open (file contents
modelled as an optional string) followed by a JSON parse (abstract parse
function). -/
def RuntimeLock.load_file (file : Option Str)
    (parse : Str → Option RuntimeLock) : Except Unit RuntimeLock :=
  match file with
  | none => Except.error ()
  | some s =>
    match parse s with
    | some r => Except.ok r
    | none => Except.error ()

/-- RuntimeLock::load from src/database.rs:
load_file(default_path).unwrap_or_else(RuntimeLock::empty). -/
def RuntimeLock.load (file : Option Str)
    (parse : Str → Option RuntimeLock) : RuntimeLock :=
  match RuntimeLock.load_file file parse with
  | Except.ok r => r
  | Except.error _ => RuntimeLock.empty

/-- Status flags of one libgit2 status entry (git2::Status bitflags), one
Bool per flag the dura code can observe. An entry with every flag false is
a CURRENT (unmodified) entry. -/
structure GitStatus where
  wt_new : Bool
  wt_modified : Bool
  wt_deleted : Bool
  wt_typechange : Bool
  wt_renamed : Bool
  index_new : Bool
  index_modified : Bool
  index_deleted : Bool
  index_renamed : Bool
  index_typechange : Bool
  conflicted : Bool
  ignored : Bool
deriving DecidableEq

/-- Predicate for a CURRENT (unmodified) entry: no flag set. -/
def GitStatus.isCurrent (s : GitStatus) : Bool :=
  !(s.wt_new || s.wt_modified || s.wt_deleted || s.wt_typechange ||
    s.wt_renamed || s.index_new || s.index_modified || s.index_deleted ||
    s.index_renamed || s.index_typechange || s.conflicted || s.ignored)

/-- Filtering performed by Repository::statuses for the include options the
dura code passes: include_untracked drops untracked (WT_NEW) entries when
false, include_ignored drops IGNORED entries when false, include_unmodified
drops CURRENT entries when false. The rename-detection and
recurse-untracked-dirs options only refine how a difference is represented,
never whether one is listed, and are not modelled. -/
def statusesFilter (includeUntracked includeIgnored includeUnmodified : Bool)
    (raw : List GitStatus) : List GitStatus :=
  raw.filter (fun e =>
    (includeUntracked || !e.wt_new) &&
    (includeIgnored || !e.ignored) &&
    (includeUnmodified || !e.isCurrent))

/-- Status test applied per entry by Config::print_repo_status
(src/config.rs lines 238-244): exactly the six new/modified/deleted flags. -/
def sixChange (s : GitStatus) : Bool :=
  s.wt_new || s.wt_modified || s.wt_deleted ||
  s.index_new || s.index_modified || s.index_deleted

/-- Uncommitted-changes flag computed by Config::print_repo_status: any
returned entry with one of the six checked statuses, over statuses called
with include_untracked(true), include_ignored(false),
include_unmodified(false). -/
def hasChangesDetailed (raw : List GitStatus) : Bool :=
  (statusesFilter true false false raw).any sixChange

/-- Uncommitted-changes flag computed by Config::print_summary:
!statuses.is_empty() over the same include options. -/
def hasChangesSummary (raw : List GitStatus) : Bool :=
  !(statusesFilter true false false raw).isEmpty

/-- Difference predicate following the spec: an entry records a
working-tree or index difference against the current commit when it is not
unmodified (untracked files count) and not ignored. -/
def isDifference (s : GitStatus) : Bool :=
  !s.isCurrent && !s.ignored

/-- Commit from git2, with the fields the dura code reads: the object id,
the message, the commit time in seconds (i64, modelled as Int) and the
parent ids. -/
structure Commit where
  id : Str
  message : Str
  time : Int
  parents : List Str
deriving DecidableEq

/-- Local branch as the dura code observes it: branch.name() may fail or be
non-unicode (modelled none) and peel_to_commit may fail (tip none). -/
structure Branch where
  name : Option Str
  tip : Option Commit
deriving DecidableEq

/-- Branch-name test used by both status paths: name.starts_with("dura/"). -/
def isDuraBranch (b : Branch) : Bool :=
  match b.name with
  | some n => startsWithL n "dura/".data
  | none => false

/-- Tips of the dura/ branches that peel to a commit. -/
def duraTips (bs : List Branch) : List Commit :=
  bs.filterMap (fun b => if isDuraBranch b then b.tip else none)

/-- Number of local branches whose name starts with dura/. -/
def countDura (bs : List Branch) : Nat :=
  (bs.filter isDuraBranch).length

/-- Loop body of the backup scan in Config::print_repo_status
(src/config.rs lines 266-286): accumulator (latest_backup, backup_count). -/
def stepDetailed (acc : Option Commit × Nat) (b : Branch) :
    Option Commit × Nat :=
  match b.name with
  | some name =>
    if startsWithL name "dura/".data then
      let count := acc.2 + 1
      match b.tip with
      | some commit =>
        match acc.1 with
        | none => (some commit, count)
        | some latest =>
          if commit.time > latest.time then (some commit, count)
          else (some latest, count)
      | none => (acc.1, count)
    else acc
  | none => acc

/-- Backup-branch loop of Config::print_repo_status. -/
def scanDetailed : Option Commit × Nat → List Branch → Option Commit × Nat
  | acc, [] => acc
  | acc, b :: rest => scanDetailed (stepDetailed acc b) rest

/-- Backup scan of Config::print_repo_status, started from
(latest_backup = None, backup_count = 0). -/
def backupScanDetailed (bs : List Branch) : Option Commit × Nat :=
  scanDetailed (none, 0) bs

/-- Loop body of the backup scan in Config::print_summary (src/config.rs
lines 356-376): accumulator (backup_count, latest_time, latest_commit_id),
with latest_time initialized to 0 and updated only on strictly greater
commit times. -/
def stepSummary (acc : Nat × Int × Option Str) (b : Branch) :
    Nat × Int × Option Str :=
  match b.name with
  | some name =>
    if startsWithL name "dura/".data then
      let count := acc.1 + 1
      match b.tip with
      | some commit =>
        if commit.time > acc.2.1 then (count, commit.time, some commit.id)
        else (count, acc.2.1, acc.2.2)
      | none => (count, acc.2.1, acc.2.2)
    else acc
  | none => acc

/-- Backup-branch loop of Config::print_summary. -/
def scanSummary : Nat × Int × Option Str → List Branch → Nat × Int × Option Str
  | acc, [] => acc
  | acc, b :: rest => scanSummary (stepSummary acc b) rest

/-- Backup scan of Config::print_summary, started from
(backup_count = 0, latest_time = 0, latest_commit_id = None). -/
def backupScanSummary (bs : List Branch) : Nat × Int × Option Str :=
  scanSummary (0, 0, none) bs

/-- Commit lookup by id in a commit store. -/
def commitById (commits : List Commit) (id : Str) : Option Commit :=
  commits.find? (fun c => c.id = id)

/-- Fuel-bounded graph walk collecting every commit id reachable from the
frontier through parent edges. The fuel only bounds the walk; with fuel at
least (number of stored commits + 1) * (initial frontier + total parent
count + 1) the walk is exhaustive. -/
def reachWalk (commits : List Commit) :
    Nat → List Str → List Str → List Str
  | 0, _, visited => visited
  | _ + 1, [], visited => visited
  | fuel + 1, id :: rest, visited =>
    if visited.contains id then reachWalk commits fuel rest visited
    else
      match commitById commits id with
      | some c => reachWalk commits fuel (c.parents ++ rest) (id :: visited)
      | none => reachWalk commits fuel rest (id :: visited)

/-- Modelled from the spec (the snapshot engine that writes marker commits
is not part of the sources under src/): the number of automated snapshots
of a repository, obtained by walking the commit history reachable from the
tips of the dedicated backup (dura/) references and counting the commits
whose message is the fixed snapshot marker. -/
def specSnapshotCount (marker : Str) (commits : List Commit)
    (bs : List Branch) : Nat :=
  let tips := (duraTips bs).map (fun c => c.id)
  let fuel := (commits.length + 1) *
    (tips.length + (commits.map (fun c => c.parents.length)).sum + 1)
  let reach := reachWalk commits fuel tips []
  (reach.filter (fun id =>
    match commitById commits id with
    | some c => c.message = marker
    | none => false)).length

/-- Uptime decomposition printed by Config::print_detailed_info
(src/config.rs lines 186-189), for an elapsed duration of s whole seconds:
(days, hours, minutes, seconds). -/
def uptimeParts (s : Nat) : Nat × Nat × Nat × Nat :=
  (s / 86400, (s % 86400) / 3600, (s % 3600) / 60, s % 60)

/-- Server-status line of the dura status output. -/
inductive ServerReport where
  | running : Nat → Option (Nat × Nat × Nat × Nat) → ServerReport
  | notRunning : ServerReport
deriving DecidableEq

/-- Server-status part of Config::print_detailed_info (src/config.rs lines
180-195): running with the lock pid when it is set, with the uptime
decomposition of now - start_time when a start time is recorded and
SystemTime::now().duration_since(start_time) succeeds (start_time not
later than now); otherwise not running. -/
def serverStatusReport (lock : RuntimeLock) (now : Nat) : ServerReport :=
  match lock.pid with
  | some pid =>
    ServerReport.running pid
      (match lock.start_time with
       | some st => if st ≤ now then some (uptimeParts (now - st)) else none
       | none => none)
  | none => ServerReport.notRunning

/-- Repository as seen through git2 by the status code: the raw status
entries (none when Repository::statuses fails) and the local branch list
(none when Repository::branches fails). -/
structure Repo where
  rawEntries : Option (List GitStatus)
  branches : Option (List Branch)

/-- World state the status code can observe: the loaded Config, the
filesystem directories (a present path maps to some entry; the entry is
some repo when Repository::open succeeds and none when it fails) and the
runtime-lock file contents. -/
structure World where
  config : Config
  dirs : List (Str × Option Repo)
  lockFile : Option Str

/-- Facts printed by Config::print_repo_status for one repository. -/
inductive RepoFacts where
  | notFound : RepoFacts
  | notRepo : RepoFacts
  | ok : Option Bool → Nat → Option Commit → RepoFacts

/-- Config::print_repo_status (src/config.rs lines 212-318) as a state
passing function: every repository access is a read of the world, and the
world is returned alongside the facts. -/
def printRepoStatusW (w : World) (path : Str) : RepoFacts × World :=
  match lookupKey w.dirs path with
  | none => (RepoFacts.notFound, w)
  | some none => (RepoFacts.notRepo, w)
  | some (some repo) =>
    let hasCh := repo.rawEntries.map hasChangesDetailed
    let scan := backupScanDetailed (repo.branches.getD [])
    (RepoFacts.ok hasCh scan.2 scan.1, w)

/-- Per-repository body of Config::print_summary (src/config.rs lines
330-397) as a state-passing function: (accessible, backup_count,
has_changes) plus the world. A failing statuses call counts as no changes
(unwrap_or(false)); a failing branches call as zero backups. -/
def summaryRepoW (w : World) (path : Str) : (Bool × Nat × Bool) × World :=
  match lookupKey w.dirs path with
  | none => ((false, 0, false), w)
  | some none => ((false, 0, false), w)
  | some (some repo) =>
    let hasCh := (repo.rawEntries.map hasChangesSummary).getD false
    let scan := backupScanSummary (repo.branches.getD [])
    ((true, scan.1, hasCh), w)

/-- Repository loop of Config::print_summary, accumulating
(total_backups, repos_with_changes, inaccessible_repos). -/
def summaryLoopW (w : World) : List (Str × WatchConfig) → Nat × Nat × Nat →
    (Nat × Nat × Nat) × World
  | [], acc => (acc, w)
  | (path, _) :: rest, acc =>
    let r := summaryRepoW w path
    let acc2 :=
      match r.1 with
      | (false, _, _) => (acc.1, acc.2.1, acc.2.2 + 1)
      | (true, cnt, hc) =>
        (acc.1 + cnt, acc.2.1 + (if hc then 1 else 0), acc.2.2)
    summaryLoopW r.2 rest acc2

/-- Config::print_summary (src/config.rs lines 320-411) as a state-passing
function: (total_repos, total_backups, repos_with_changes,
inaccessible_repos) plus the world. -/
def printSummaryW (w : World) : (Nat × Nat × Nat × Nat) × World :=
  let total := w.config.repos.length
  let r := summaryLoopW w w.config.repos (0, 0, 0)
  ((total, r.1.1, r.1.2.1, r.1.2.2), r.2)

/-- Status read path of Config::print_detailed_info: load the runtime lock
from its file and report, leaving the world alongside the report. -/
def statusReadW (w : World) (now : Nat)
    (parse : Str → Option RuntimeLock) : ServerReport × World :=
  (serverStatusReport (RuntimeLock.load w.lockFile parse) now, w)

/-- TOML document values, at the level the toml crate renders to text and
parses back (the text rendering itself is the external toml crate and is
modelled at this document level). -/
inductive Toml where
  | str : Str → Toml
  | int : Int → Toml
  | bool : Bool → Toml
  | arr : List Toml → Toml
  | table : List (Str × Toml) → Toml

/-- Serde serialization of WatchConfig to a TOML table, in field order. -/
def serWatchConfig (w : WatchConfig) : Toml :=
  Toml.table
    [ ("include".data, Toml.arr (w.include_.map Toml.str))
    , ("exclude".data, Toml.arr (w.exclude.map Toml.str))
    , ("max_depth".data, Toml.int w.max_depth.val) ]

/-- Serde serialization of Config to a TOML table, in field order: the
bool field always, the optional author and email only when present (the
toml crate omits None fields), and the repos table last (iterated in
BTreeMap key order, which is the order of the modelled entry list). This
is the document Config::save_to_path (src/config.rs lines 119-135) renders
and writes. -/
def serConfig (c : Config) : Toml :=
  Toml.table
    (("commit_exclude_git_config".data, Toml.bool c.commit_exclude_git_config)
      :: ((match c.commit_author with
           | some a => [("commit_author".data, Toml.str a)]
           | none => []) ++
          (match c.commit_email with
           | some e => [("commit_email".data, Toml.str e)]
           | none => []) ++
          [("repos".data,
            Toml.table (c.repos.map (fun kv => (kv.1, serWatchConfig kv.2))))]))

/-- Deserialization of a TOML array of strings. -/
def deStrList : List Toml → Option (List Str)
  | [] => some []
  | Toml.str s :: rest => (deStrList rest).map (fun l => s :: l)
  | _ => none

/-- Serde deserialization of WatchConfig from a TOML value: all three
fields required, max_depth range-checked as a u8, unknown keys ignored
(serde default). -/
def deWatchConfig (t : Toml) : Option WatchConfig :=
  match t with
  | Toml.table kvs =>
    match lookupKey kvs "include".data, lookupKey kvs "exclude".data,
          lookupKey kvs "max_depth".data with
    | some (Toml.arr xs), some (Toml.arr ys), some (Toml.int n) =>
      match deStrList xs, deStrList ys with
      | some inc, some exc =>
        if h : 0 ≤ n ∧ n < 256 then
          some { include_ := inc, exclude := exc
               , max_depth := ⟨n.toNat, by omega⟩ }
        else none
      | _, _ => none
    | _, _, _ => none
  | _ => none

/-- Deserialization of an optional string field: a missing key is None, a
present string is Some, any other shape is an error. -/
def deOptStrField (kvs : List (Str × Toml)) (key : Str) :
    Option (Option Str) :=
  match lookupKey kvs key with
  | none => some none
  | some (Toml.str s) => some (some s)
  | some _ => none

/-- Deserialization of a bool field carrying a serde default for a missing
key. -/
def deBoolFieldD (kvs : List (Str × Toml)) (key : Str) (dflt : Bool) :
    Option Bool :=
  match lookupKey kvs key with
  | none => some dflt
  | some (Toml.bool b) => some b
  | some _ => none

/-- Deserialization of the repos table entries, in document order. -/
def deReposEntries : List (Str × Toml) → Option (List (Str × WatchConfig))
  | [] => some []
  | (k, t) :: rest =>
    match deWatchConfig t, deReposEntries rest with
    | some w, some ws => some ((k, w) :: ws)
    | _, _ => none

/-- Serde deserialization of Config from a TOML document:
commit_exclude_git_config defaults to false when missing (serde(default)),
author and email are optional, repos is required and its entries are
inserted one by one into a fresh BTreeMap. This is the parse
Config::load_file (src/config.rs lines 94-102) applies to the file. -/
def deConfig (t : Toml) : Option Config :=
  match t with
  | Toml.table kvs =>
    match deBoolFieldD kvs "commit_exclude_git_config".data false,
          deOptStrField kvs "commit_author".data,
          deOptStrField kvs "commit_email".data,
          lookupKey kvs "repos".data with
    | some flag, some author, some email, some (Toml.table rkvs) =>
      match deReposEntries rkvs with
      | some entries =>
        some { commit_exclude_git_config := flag
             , commit_author := author
             , commit_email := email
             , repos := entries.foldl (fun m kv => btInsert kv.1 kv.2 m) [] }
      | none => none
    | _, _, _, _ => none
  | _ => none

/-- Accumulation step isolating the latest-backup update of
Config::print_repo_status: keep the commit with the strictly greater time,
the earlier one on ties. -/
def pickLatest : Option Commit → Commit → Option Commit
  | none, c => some c
  | some l, c => if c.time > l.time then some c else some l

/-- Accumulation step isolating the latest-backup update of
Config::print_summary on the (latest_time, latest_commit_id) pair. -/
def stepTime : Int × Option Str → Commit → Int × Option Str
  | (t, i), c => if c.time > t then (c.time, some c.id) else (t, i)

/-- Example snapshot marker string (the snapshot engine writing marker
commits is outside src/; any fixed marker exhibits the counterexample). -/
def exMarker : Str := "dura auto-backup".data

/-- Example backup commit chain: two marker commits, the second the child
of the first, as consecutive snapshots on one backup branch chain. -/
def exCommits : List Commit :=
  [ { id := "c1".data, message := exMarker, time := 1, parents := [] }
  , { id := "c2".data, message := exMarker, time := 2
    , parents := ["c1".data] } ]

/-- Example branch list: a single dura/ branch whose tip is the second
marker commit. -/
def exBranches : List Branch :=
  [ { name := some "dura/abc".data
    , tip := some { id := "c2".data, message := exMarker, time := 2
                  , parents := ["c1".data] } } ]

/-- Example branch list with a single dura/ branch whose tip commit has
time 0. -/
def exBranchesZero : List Branch :=
  [ { name := some "dura/a".data
    , tip := some { id := "c0".data, message := [], time := 0
                  , parents := [] } } ]

/-- Example branch list with a single dura/ branch whose tip commit has a
positive time. -/
def exBranchesPos : List Branch :=
  [ { name := some "dura/a".data
    , tip := some { id := "c9".data, message := [], time := 5
                  , parents := [] } } ]

/-- Example status entry whose only flag is a working-tree type change. -/
def exTypechangeEntry : GitStatus :=
  { wt_new := false, wt_modified := false, wt_deleted := false
  , wt_typechange := true, wt_renamed := false, index_new := false
  , index_modified := false, index_deleted := false, index_renamed := false
  , index_typechange := false, conflicted := false, ignored := false }

/-- Example configuration with one optional field set and two sorted repo
entries. -/
def exConfig : Config :=
  { commit_exclude_git_config := true
  , commit_author := some "alice".data
  , commit_email := none
  , repos := [("/a".data, WatchConfig.new), ("/b".data, WatchConfig.new)] }

/-- C8: Config::load never fails: whenever the configuration file is
missing or unreadable (no file contents) or malformed (the TOML parse
rejects the contents), it returns the empty configuration, whose fields
are commit_exclude_git_config = false, no author, no email and an empty
repos map. -/
theorem config_load_never_fails (file : Option Str)
    (parse : Str → Option Config)
    (h : file = none ∨ ∃ s, file = some s ∧ parse s = none) :
    Config.load file parse = Config.empty ∧
    Config.empty.commit_exclude_git_config = false ∧
    Config.empty.commit_author = none ∧
    Config.empty.commit_email = none ∧
    Config.empty.repos = [] := by
  refine ⟨?_, rfl, rfl, rfl, rfl⟩
  rcases h with h | ⟨s, hs, hp⟩
  · subst h; rfl
  · subst hs; simp [Config.load, Config.load_file, hp]

/-- Witness for config_load_never_fails at a missing file and at a parse
that rejects everything. -/
theorem config_load_never_fails_witness :
    Config.load none (fun _ => none) = Config.empty ∧
    Config.load (some "x".data) (fun _ => none) = Config.empty :=
  ⟨(config_load_never_fails none (fun _ => none) (Or.inl rfl)).1,
   (config_load_never_fails (some "x".data) (fun _ => none)
     (Or.inr ⟨"x".data, rfl, rfl⟩)).1⟩

/-- C6: for a recorded start_time not later than the query time, the
status query computes the uptime fresh from the current time as
now - start_time, and the printed decomposition satisfies
days * 86400 + hours * 3600 + minutes * 60 + seconds = elapsed whole
seconds with hours < 24, minutes < 60 and seconds < 60. -/
theorem uptime_fresh_and_decomposed (now st p : Nat) (h : st ≤ now) :
    serverStatusReport { pid := some p, start_time := some st } now =
      ServerReport.running p (some (uptimeParts (now - st))) ∧
    (uptimeParts (now - st)).1 * 86400 + (uptimeParts (now - st)).2.1 * 3600 +
      (uptimeParts (now - st)).2.2.1 * 60 + (uptimeParts (now - st)).2.2.2 =
      now - st ∧
    (uptimeParts (now - st)).2.1 < 24 ∧
    (uptimeParts (now - st)).2.2.1 < 60 ∧
    (uptimeParts (now - st)).2.2.2 < 60 := by
  refine ⟨by simp [serverStatusReport, h], ?_, ?_, ?_, ?_⟩ <;>
    simp only [uptimeParts] <;> omega

/-- Witness for uptime_fresh_and_decomposed at now = 1000000, st = 137,
pid = 7. -/
theorem uptime_fresh_and_decomposed_witness :
    serverStatusReport { pid := some 7, start_time := some 137 } 1000000 =
      ServerReport.running 7 (some (uptimeParts (1000000 - 137))) ∧
    (uptimeParts (1000000 - 137)).1 * 86400 +
      (uptimeParts (1000000 - 137)).2.1 * 3600 +
      (uptimeParts (1000000 - 137)).2.2.1 * 60 +
      (uptimeParts (1000000 - 137)).2.2.2 = 1000000 - 137 :=
  ⟨(uptime_fresh_and_decomposed 1000000 137 7 (by decide)).1,
   (uptime_fresh_and_decomposed 1000000 137 7 (by decide)).2.1⟩

/-- Per-repository summary computation returns the world it was given. -/
theorem summaryRepoW_world (w : World) (path : Str) :
    (summaryRepoW w path).2 = w := by
  unfold summaryRepoW
  rcases lookupKey w.dirs path with _ | (_ | repo) <;> rfl

/-- Summary loop returns the world it was given. -/
theorem summaryLoopW_world (entries : List (Str × WatchConfig)) :
    ∀ (w : World) (acc : Nat × Nat × Nat),
      (summaryLoopW w entries acc).2 = w := by
  induction entries with
  | nil => intro w acc; rfl
  | cons e rest ih =>
    intro w acc
    obtain ⟨path, cfg⟩ := e
    have hw := summaryRepoW_world w path
    simp only [summaryLoopW, hw, ih]

/-- C7: the status facts computation (existence check, openability,
uncommitted-changes check, backup count, latest-backup time) and the
status read of the runtime lock are read-only: threaded through an
explicit world state, print_repo_status, print_summary and the lock read
return the world (repository states, repos map, lock) unchanged, for
every world and repository. -/
theorem status_facts_read_only (w : World) (path : Str) (now : Nat)
    (parse : Str → Option RuntimeLock) :
    (printRepoStatusW w path).2 = w ∧
    (printSummaryW w).2 = w ∧
    (statusReadW w now parse).2 = w := by
  refine ⟨?_, ?_, rfl⟩
  · unfold printRepoStatusW
    rcases lookupKey w.dirs path with _ | (_ | repo) <;> rfl
  · unfold printSummaryW
    exact summaryLoopW_world w.config.repos w (0, 0, 0)

/-- C4 counterexample: a loaded lock with pid 1 and recorded start time
100 queried at time 50 (a start time later than the query time) is
reported running but with no uptime, although a start time is recorded. -/
theorem status_running_no_uptime_future_start :
    (RuntimeLock.mk (some 1) (some 100)).start_time.isSome = true ∧
    serverStatusReport { pid := some 1, start_time := some 100 } 50 =
      ServerReport.running 1 none := by decide

/-- C4 (amended): the status read path reports the daemon as running with
the lock pid exactly when the loaded lock has a pid, reporting the uptime
decomposition of now - start_time when a start time is recorded that is
not later than the query time; it reports not running when the lock has
no pid; a lock file that is absent or unreadable or unparseable loads as
the empty lock (pid and start_time both None); and the status read path
never writes the lock. -/
theorem status_read_path_reports_lock (lock : RuntimeLock) (now : Nat)
    (file : Option Str) (parse : Str → Option RuntimeLock) (w : World) :
    ((∃ p u, serverStatusReport lock now = ServerReport.running p u ∧
        lock.pid = some p) ↔ lock.pid.isSome) ∧
    (lock.pid = none → serverStatusReport lock now = ServerReport.notRunning) ∧
    (∀ p st, lock.pid = some p → lock.start_time = some st → st ≤ now →
      serverStatusReport lock now =
        ServerReport.running p (some (uptimeParts (now - st)))) ∧
    ((file = none ∨ ∃ s, file = some s ∧ parse s = none) →
      RuntimeLock.load file parse = RuntimeLock.empty) ∧
    RuntimeLock.empty.pid = none ∧
    RuntimeLock.empty.start_time = none ∧
    (statusReadW w now parse).2 = w := by
  refine ⟨?_, ?_, ?_, ?_, rfl, rfl, rfl⟩
  · constructor
    · rintro ⟨p, u, _, hp⟩
      simp [hp]
    · intro hp
      rcases h : lock.pid with _ | p
      · simp [h] at hp
      · rcases hst : lock.start_time with _ | st
        · exact ⟨p, none, by simp [serverStatusReport, h, hst], rfl⟩
        · by_cases hle : st ≤ now
          · exact ⟨p, some (uptimeParts (now - st)),
              by simp [serverStatusReport, h, hst, hle], rfl⟩
          · exact ⟨p, none, by simp [serverStatusReport, h, hst, hle], rfl⟩
  · intro hp
    simp [serverStatusReport, hp]
  · intro p st hp hst hle
    simp [serverStatusReport, hp, hst, hle]
  · rintro (h | ⟨s, hs, hparse⟩)
    · subst h; rfl
    · subst hs; simp [RuntimeLock.load, RuntimeLock.load_file, hparse]

/-- Witness for status_read_path_reports_lock at a held lock with pid 3
and start time 10, queried at time 70, and at a missing lock file. -/
theorem status_read_path_reports_lock_witness :
    serverStatusReport { pid := some 3, start_time := some 10 } 70 =
      ServerReport.running 3 (some (uptimeParts 60)) ∧
    RuntimeLock.load none (fun _ => none) = RuntimeLock.empty := by
  have h := status_read_path_reports_lock
    { pid := some 3, start_time := some 10 } 70 none (fun _ => none)
    { config := Config.empty, dirs := [], lockFile := none }
  exact ⟨h.2.2.1 3 10 rfl rfl (by decide), h.2.2.2.1 (Or.inl rfl)⟩

/-- Strict lexicographic order is irreflexive. -/
theorem ltL_irrefl (s : Str) : ltL s s = false := by
  induction s with
  | nil => rfl
  | cons c cs ih => simp [ltL, ih]

/-- Strict lexicographic order is asymmetric. -/
theorem ltL_asymm (a b : Str) (h : ltL a b = true) : ltL b a = false := by
  induction a generalizing b with
  | nil => cases b <;> simp [ltL]
  | cons c cs ih =>
    cases b with
    | nil => simp [ltL] at h
    | cons d ds =>
      simp only [ltL, Bool.or_eq_true, decide_eq_true_eq,
        Bool.and_eq_true] at h
      rcases h with h | ⟨he, h⟩
      · have hdc : ¬ d < c := asymm h
        have hne : d ≠ c := ne_of_gt h
        simp [ltL, hdc, hne]
      · subst he
        simp [ltL, lt_irrefl, ih ds h]

/-- Lookup of a freshly inserted key yields the inserted value. -/
theorem lookupKey_btInsert_self {β : Type} (k : Str) (v : β)
    (m : List (Str × β)) : lookupKey (btInsert k v m) k = some v := by
  induction m with
  | nil => simp [btInsert, lookupKey]
  | cons p rest ih =>
    obtain ⟨k2, v2⟩ := p
    by_cases h1 : ltL k k2 = true
    · simp [btInsert, h1, lookupKey]
    · by_cases h2 : k = k2
      · subst h2
        simp [btInsert, ltL_irrefl, lookupKey]
      · simp [btInsert, h1, h2, lookupKey, Ne.symm h2, ih]

/-- Lookup of any other key is unchanged by an insert. -/
theorem lookupKey_btInsert_ne {β : Type} (k k2 : Str) (v : β)
    (m : List (Str × β)) (h : k2 ≠ k) :
    lookupKey (btInsert k v m) k2 = lookupKey m k2 := by
  induction m with
  | nil => simp [btInsert, lookupKey, Ne.symm h]
  | cons p rest ih =>
    obtain ⟨k3, v3⟩ := p
    by_cases h1 : ltL k k3 = true
    · simp [btInsert, h1, lookupKey, Ne.symm h]
    · by_cases h2 : k = k3
      · subst h2
        simp [btInsert, h1, lookupKey, Ne.symm h]
      · simp [btInsert, h1, h2, lookupKey, ih]

/-- Insertion makes the key present. -/
theorem containsKey_btInsert_self {β : Type} (k : Str) (v : β)
    (m : List (Str × β)) : containsKey (btInsert k v m) k = true := by
  induction m with
  | nil => simp [btInsert, containsKey]
  | cons p rest ih =>
    obtain ⟨k2, v2⟩ := p
    by_cases h1 : ltL k k2 = true
    · simp [btInsert, h1, containsKey]
    · by_cases h2 : k = k2
      · subst h2
        simp [btInsert, ltL_irrefl, containsKey]
      · simp only [btInsert, if_neg h1, if_neg h2]
        simp only [containsKey, List.any_cons, Bool.or_eq_true] at ih ⊢
        exact Or.inr ih

/-- Removing an absent key leaves the list unchanged. -/
theorem btRemove_of_not_contains {β : Type} (k : Str) (m : List (Str × β))
    (h : containsKey m k = false) : btRemove k m = m := by
  induction m with
  | nil => rfl
  | cons p rest ih =>
    obtain ⟨k2, v2⟩ := p
    simp only [containsKey, List.any_cons, Bool.or_eq_false_iff,
      decide_eq_false_iff_not] at h
    have hrest : btRemove k rest = rest := ih h.2
    simp [btRemove, Ne.symm h.1, hrest]

/-- Lookup of an absent key is none. -/
theorem lookupKey_eq_none_of_not_contains {β : Type} (k : Str)
    (m : List (Str × β)) (h : containsKey m k = false) :
    lookupKey m k = none := by
  induction m with
  | nil => rfl
  | cons p rest ih =>
    obtain ⟨k2, v2⟩ := p
    simp only [containsKey, List.any_cons, Bool.or_eq_false_iff,
      decide_eq_false_iff_not] at h
    have hrest : lookupKey rest k = none := ih h.2
    simp [lookupKey, h.1, hrest]

/-- Removal of a key makes it absent, on distinct-key lists. -/
theorem lookupKey_btRemove_self {β : Type} (k : Str) (m : List (Str × β))
    (h : nodupKeys m) : lookupKey (btRemove k m) k = none := by
  induction m with
  | nil => rfl
  | cons p rest ih =>
    obtain ⟨k2, v2⟩ := p
    rcases List.pairwise_cons.mp h with ⟨hhead, htail⟩
    by_cases h2 : k = k2
    · subst h2
      simp only [btRemove, if_pos rfl]
      apply lookupKey_eq_none_of_not_contains
      simp only [containsKey, List.any_eq_false, decide_eq_true_eq]
      intro p hp
      exact fun e => hhead p hp e.symm
    · simp [btRemove, Ne.symm h2, lookupKey, h2, ih htail]

/-- Lookup of any other key is unchanged by a removal. -/
theorem lookupKey_btRemove_ne {β : Type} (k k2 : Str) (m : List (Str × β))
    (h : k2 ≠ k) : lookupKey (btRemove k m) k2 = lookupKey m k2 := by
  induction m with
  | nil => rfl
  | cons p rest ih =>
    obtain ⟨k3, v3⟩ := p
    by_cases h3 : k = k3
    · subst h3
      simp [btRemove, lookupKey, Ne.symm h]
    · simp [btRemove, h3, lookupKey, ih]

/-- C5: set_watch and set_unwatch identify a repository entry by the
canonicalized absolute form of the given path: when the canonical path is
not yet a key, set_watch inserts the watch settings under it and no other
key changes; set_unwatch removes exactly the entry keyed by the canonical
path, leaving every other key unchanged. -/
theorem set_watch_unwatch_canonical (canon : Str → Option Str) (c : Config)
    (path : Str) (cfg : WatchConfig) (abs : Str)
    (hc : canon path = some abs) :
    (containsKey c.repos abs = false →
      Config.set_watch canon c path cfg =
        some { c with repos := btInsert abs cfg c.repos } ∧
      lookupKey (btInsert abs cfg c.repos) abs = some cfg ∧
      ∀ k, k ≠ abs →
        lookupKey (btInsert abs cfg c.repos) k = lookupKey c.repos k) ∧
    (nodupKeys c.repos →
      Config.set_unwatch canon c path =
        some { c with repos := btRemove abs c.repos } ∧
      lookupKey (btRemove abs c.repos) abs = none ∧
      ∀ k, k ≠ abs →
        lookupKey (btRemove abs c.repos) k = lookupKey c.repos k) := by
  constructor
  · intro hcont
    refine ⟨?_, lookupKey_btInsert_self abs cfg c.repos,
      fun k hk => lookupKey_btInsert_ne abs k cfg c.repos hk⟩
    simp [Config.set_watch, hc, hcont]
  · intro hnd
    refine ⟨?_, lookupKey_btRemove_self abs c.repos hnd,
      fun k hk => lookupKey_btRemove_ne abs k c.repos hk⟩
    simp [Config.set_unwatch, hc]

/-- Witness for set_watch_unwatch_canonical: watching path a under the
identity canonicalization inserts the entry, and unwatching it again
removes it. -/
theorem set_watch_unwatch_canonical_witness :
    Config.set_watch (fun p => some p) Config.empty "a".data
      WatchConfig.new =
      some { Config.empty with
             repos := btInsert "a".data WatchConfig.new [] } ∧
    lookupKey (btInsert "a".data WatchConfig.new []) "a".data =
      some WatchConfig.new ∧
    lookupKey (btRemove "a".data ([] : List (Str × WatchConfig)))
      "a".data = none := by
  have h := set_watch_unwatch_canonical (fun p => some p) Config.empty
    "a".data WatchConfig.new "a".data rfl
  have h1 := h.1 (by decide)
  have h2 := h.2 (by constructor)
  exact ⟨h1.1, h1.2.1, h2.2.1⟩

/-- C10: set_watch on an already-watched canonical path leaves the whole
Config unchanged (the existing settings are not overwritten), set_unwatch
on an absent canonical path leaves it unchanged, and set_watch with fixed
arguments is idempotent. -/
theorem set_watch_unwatch_idempotent (canon : Str → Option Str) (c : Config)
    (path : Str) (cfg : WatchConfig) (abs : Str)
    (hc : canon path = some abs) :
    (containsKey c.repos abs = true →
      Config.set_watch canon c path cfg = some c) ∧
    (containsKey c.repos abs = false →
      Config.set_unwatch canon c path = some c) ∧
    (∀ c2, Config.set_watch canon c path cfg = some c2 →
      Config.set_watch canon c2 path cfg = some c2) := by
  refine ⟨?_, ?_, ?_⟩
  · intro hcont
    simp [Config.set_watch, hc, hcont]
  · intro hcont
    simp [Config.set_unwatch, hc, btRemove_of_not_contains abs c.repos hcont]
  · intro c2 h2
    by_cases hcont : containsKey c.repos abs = true
    · simp only [Config.set_watch, hc, if_pos hcont, Option.some.injEq] at h2
      subst h2
      simp [Config.set_watch, hc, hcont]
    · simp only [Config.set_watch, hc, if_neg hcont, Option.some.injEq] at h2
      subst h2
      simp [Config.set_watch, hc, containsKey_btInsert_self]

/-- Witness for set_watch_unwatch_idempotent: with path a already watched,
set_watch changes nothing; with it absent, set_unwatch changes nothing;
and watching a fresh path twice yields the once-watched Config. -/
theorem set_watch_unwatch_idempotent_witness :
    Config.set_watch (fun p => some p)
      { Config.empty with repos := [("a".data, WatchConfig.new)] }
      "a".data { WatchConfig.new with max_depth := 3 } =
      some { Config.empty with repos := [("a".data, WatchConfig.new)] } ∧
    Config.set_unwatch (fun p => some p) Config.empty "a".data =
      some Config.empty ∧
    Config.set_watch (fun p => some p)
      { Config.empty with repos := btInsert "a".data WatchConfig.new [] }
      "a".data WatchConfig.new =
      some { Config.empty with
             repos := btInsert "a".data WatchConfig.new [] } := by
  have h1 := set_watch_unwatch_idempotent (fun p => some p)
    { Config.empty with repos := [("a".data, WatchConfig.new)] }
    "a".data { WatchConfig.new with max_depth := 3 } "a".data rfl
  have h2 := set_watch_unwatch_idempotent (fun p => some p) Config.empty
    "a".data WatchConfig.new "a".data rfl
  refine ⟨h1.1 (by decide), h2.2.1 (by decide), ?_⟩
  exact h2.2.2 _ (by simp [Config.set_watch, containsKey, Config.empty])


/-- Branch-count effect of one detailed-scan step. -/
theorem stepDetailed_count (acc : Option Commit × Nat) (b : Branch) :
    (stepDetailed acc b).2 = acc.2 + (if isDuraBranch b then 1 else 0) := by
  rcases b with ⟨name, tip⟩
  rcases name with _ | name
  · simp [stepDetailed, isDuraBranch]
  · by_cases h : startsWithL name "dura/".data = true
    · rcases tip with _ | commit
      · simp [stepDetailed, isDuraBranch, h]
      · rcases acc1 : acc.1 with _ | latest
        · simp [stepDetailed, isDuraBranch, h, acc1]
        · by_cases ht : commit.time > latest.time <;>
            simp [stepDetailed, isDuraBranch, h, acc1, ht]
    · simp [stepDetailed, isDuraBranch, h]

/-- Latest-backup effect of one detailed-scan step. -/
theorem stepDetailed_latest (acc : Option Commit × Nat) (b : Branch) :
    (stepDetailed acc b).1 =
      match (if isDuraBranch b then b.tip else none) with
      | some c => pickLatest acc.1 c
      | none => acc.1 := by
  rcases b with ⟨name, tip⟩
  rcases name with _ | name
  · simp [stepDetailed, isDuraBranch]
  · by_cases h : startsWithL name "dura/".data = true
    · rcases tip with _ | commit
      · simp [stepDetailed, isDuraBranch, h]
      · rcases acc1 : acc.1 with _ | latest
        · simp [stepDetailed, isDuraBranch, h, acc1, pickLatest]
        · by_cases ht : commit.time > latest.time <;>
            simp [stepDetailed, isDuraBranch, h, acc1, pickLatest, ht]
    · simp [stepDetailed, isDuraBranch, h]

/-- Detailed scan in closed form: the latest backup is a fold of
pickLatest over the dura/ branch tips and the count is the number of
dura/ branches. -/
theorem scanDetailed_spec (bs : List Branch) : ∀ acc : Option Commit × Nat,
    scanDetailed acc bs =
      (List.foldl pickLatest acc.1 (duraTips bs), acc.2 + countDura bs) := by
  induction bs with
  | nil => intro acc; simp [scanDetailed, duraTips, countDura]
  | cons b rest ih =>
    intro acc
    simp only [scanDetailed]
    rw [ih (stepDetailed acc b)]
    have hc := stepDetailed_count acc b
    have hl := stepDetailed_latest acc b
    cases hd : isDuraBranch b with
    | false =>
      rw [hd] at hc hl
      simp only [if_neg Bool.false_ne_true] at hc hl
      simp [hc, hl, duraTips, List.filterMap_cons, hd, countDura,
        List.filter_cons]
    | true =>
      rw [hd] at hc hl
      simp only [if_pos rfl] at hc hl
      rcases htip : b.tip with _ | c
      · rw [htip] at hl
        simp [hc, hl, duraTips, List.filterMap_cons, hd, htip, countDura,
          List.filter_cons]
        omega
      · rw [htip] at hl
        simp [hc, hl, duraTips, List.filterMap_cons, hd, htip, countDura,
          List.filter_cons]
        omega

/-- Count and latest-time effect of one summary-scan step. -/
theorem stepSummary_spec (acc : Nat × Int × Option Str) (b : Branch) :
    stepSummary acc b =
      (acc.1 + (if isDuraBranch b then 1 else 0),
        match (if isDuraBranch b then b.tip else none) with
        | some c => stepTime acc.2 c
        | none => acc.2) := by
  rcases b with ⟨name, tip⟩
  rcases name with _ | name
  · simp [stepSummary, isDuraBranch]
  · by_cases h : startsWithL name "dura/".data = true
    · rcases tip with _ | commit
      · simp [stepSummary, isDuraBranch, h]
      · by_cases ht : commit.time > acc.2.1 <;>
          simp [stepSummary, isDuraBranch, h, ht, stepTime]
    · simp [stepSummary, isDuraBranch, h]

/-- Summary scan in closed form: the count is the number of dura/
branches and the (latest_time, latest_commit_id) pair is a fold of
stepTime over the dura/ branch tips. -/
theorem scanSummary_spec (bs : List Branch) : ∀ acc : Nat × Int × Option Str,
    scanSummary acc bs =
      (acc.1 + countDura bs, List.foldl stepTime acc.2 (duraTips bs)) := by
  induction bs with
  | nil => intro acc; simp [scanSummary, duraTips, countDura]
  | cons b rest ih =>
    intro acc
    simp only [scanSummary]
    rw [ih (stepSummary acc b), stepSummary_spec]
    cases hd : isDuraBranch b with
    | false =>
      simp [duraTips, List.filterMap_cons, hd, countDura, List.filter_cons]
    | true =>
      rcases htip : b.tip with _ | c <;>
        simp [duraTips, List.filterMap_cons, hd, htip, countDura,
          List.filter_cons] <;> omega

/-- C1 (amended): for every watched repository, the backup count reported
by both status paths equals the number of local branches whose name starts
with dura/; commit messages and commit-history walks play no part in it. -/
theorem backup_count_is_dura_branch_count (bs : List Branch) :
    (backupScanDetailed bs).2 = countDura bs ∧
    (backupScanSummary bs).1 = countDura bs := by
  constructor
  · unfold backupScanDetailed
    rw [scanDetailed_spec]
    simp
  · unfold backupScanSummary
    rw [scanSummary_spec]
    simp

/-- C1 counterexample: one dura/ branch whose tip is the second of two
chained marker commits. Walking the history reachable from the backup
reference and counting marker commits yields 2, but both status paths
report 1: the code counts branches named dura/, not snapshot commits. -/
theorem backup_count_ignores_marker_history :
    (backupScanDetailed exBranches).2 = 1 ∧
    (backupScanSummary exBranches).1 = 1 ∧
    specSnapshotCount exMarker exCommits exBranches = 2 ∧
    (backupScanDetailed exBranches).2 ≠
      specSnapshotCount exMarker exCommits exBranches := by decide

/-- Fold of pickLatest starting from a commit returns a commit of maximal
time among the start and the list. -/
theorem foldl_pickLatest_spec (l : List Commit) : ∀ c d : Commit,
    List.foldl pickLatest (some c) l = some d →
    (d = c ∨ d ∈ l) ∧ c.time ≤ d.time ∧ ∀ x ∈ l, x.time ≤ d.time := by
  induction l with
  | nil =>
    intro c d h
    simp only [List.foldl, Option.some.injEq] at h
    subst h
    exact ⟨Or.inl rfl, le_refl _, by simp⟩
  | cons x xs ih =>
    intro c d h
    simp only [List.foldl] at h
    by_cases ht : x.time > c.time
    · rw [show pickLatest (some c) x = some x by simp [pickLatest, ht]] at h
      obtain ⟨hmem, hle, hall⟩ := ih x d h
      refine ⟨?_, le_trans (le_of_lt ht) hle, ?_⟩
      · rcases hmem with rfl | hm
        · exact Or.inr (List.mem_cons_self _ _)
        · exact Or.inr (List.mem_cons_of_mem _ hm)
      · intro y hy
        rcases List.mem_cons.mp hy with rfl | hy2
        · exact hle
        · exact hall y hy2
    · rw [show pickLatest (some c) x = some c by simp [pickLatest, ht]] at h
      obtain ⟨hmem, hle, hall⟩ := ih c d h
      push_neg at ht
      refine ⟨?_, hle, ?_⟩
      · rcases hmem with rfl | hm
        · exact Or.inl rfl
        · exact Or.inr (List.mem_cons_of_mem x hm)
      · intro y hy
        rcases List.mem_cons.mp hy with rfl | hy2
        · exact le_trans ht hle
        · exact hall y hy2

/-- Fold of pickLatest starting from a commit never returns none. -/
theorem foldl_pickLatest_isSome (l : List Commit) : ∀ c : Commit,
    (List.foldl pickLatest (some c) l).isSome = true := by
  induction l with
  | nil => intro c; rfl
  | cons x xs ih =>
    intro c
    simp only [List.foldl]
    by_cases ht : x.time > c.time
    · rw [show pickLatest (some c) x = some x by simp [pickLatest, ht]]
      exact ih x
    · rw [show pickLatest (some c) x = some c by simp [pickLatest, ht]]
      exact ih c

/-- Fold of stepTime bounds every visited time and, when it moves off the
initial accumulator, lands exactly on a listed commit with a strictly
larger time. -/
theorem foldl_stepTime_spec (l : List Commit) : ∀ (t : Int) (i : Option Str),
    t ≤ (List.foldl stepTime (t, i) l).1 ∧
    (∀ x ∈ l, x.time ≤ (List.foldl stepTime (t, i) l).1) ∧
    (List.foldl stepTime (t, i) l = (t, i) ∨
      ∃ c, c ∈ l ∧ (List.foldl stepTime (t, i) l).1 = c.time ∧
        (List.foldl stepTime (t, i) l).2 = some c.id ∧ t < c.time) := by
  induction l with
  | nil => intro t i; exact ⟨le_refl t, by simp, Or.inl rfl⟩
  | cons x xs ih =>
    intro t i
    simp only [List.foldl]
    by_cases ht : x.time > t
    · rw [show stepTime (t, i) x = (x.time, some x.id) by
        simp [stepTime, ht]]
      obtain ⟨h1, h2, h3⟩ := ih x.time (some x.id)
      refine ⟨le_trans (le_of_lt ht) h1, ?_, ?_⟩
      · intro y hy
        rcases List.mem_cons.mp hy with rfl | hy2
        · exact h1
        · exact h2 y hy2
      · rcases h3 with heq | ⟨c, hc, e1, e2, e3⟩
        · refine Or.inr ⟨x, List.mem_cons_self x xs, ?_, ?_, ht⟩
          · rw [heq]
          · rw [heq]
        · exact Or.inr ⟨c, List.mem_cons_of_mem x hc, e1, e2,
            lt_trans ht e3⟩
    · rw [show stepTime (t, i) x = (t, i) by simp [stepTime, ht]]
      obtain ⟨h1, h2, h3⟩ := ih t i
      push_neg at ht
      refine ⟨h1, ?_, ?_⟩
      · intro y hy
        rcases List.mem_cons.mp hy with rfl | hy2
        · exact le_trans ht h1
        · exact h2 y hy2
      · rcases h3 with heq | ⟨c, hc, e1, e2, e3⟩
        · exact Or.inl heq
        · exact Or.inr ⟨c, List.mem_cons_of_mem x hc, e1, e2, e3⟩

/-- C3 (amended): the detailed status view reports as latest backup a
dura/ branch tip of maximal commit time, for any timestamp values, and
reports one whenever a dura/ tip exists; the summary view reports a
latest commit id only when some dura/ tip has a strictly positive commit
time, and then the reported id belongs to a tip of maximal time. -/
theorem latest_backup_is_max (bs : List Branch) :
    (∀ d, (backupScanDetailed bs).1 = some d →
      d ∈ duraTips bs ∧ ∀ x ∈ duraTips bs, x.time ≤ d.time) ∧
    (duraTips bs ≠ [] → (backupScanDetailed bs).1.isSome = true) ∧
    (∀ i, (backupScanSummary bs).2.2 = some i →
      ∃ c, c ∈ duraTips bs ∧ c.id = i ∧ 0 < c.time ∧
        ∀ x ∈ duraTips bs, x.time ≤ c.time) ∧
    ((∃ c, c ∈ duraTips bs ∧ 0 < c.time) →
      (backupScanSummary bs).2.2.isSome = true) := by
  have hd : backupScanDetailed bs =
      (List.foldl pickLatest none (duraTips bs), countDura bs) := by
    unfold backupScanDetailed
    rw [scanDetailed_spec]
    simp
  have hs : backupScanSummary bs =
      (countDura bs, List.foldl stepTime (0, none) (duraTips bs)) := by
    unfold backupScanSummary
    rw [scanSummary_spec]
    simp
  refine ⟨?_, ?_, ?_, ?_⟩
  · intro d h
    rw [hd] at h
    rcases hl : duraTips bs with _ | ⟨t, ts⟩
    · rw [hl] at h
      simp at h
    · rw [hl] at h
      rw [show List.foldl pickLatest none (t :: ts) =
        List.foldl pickLatest (some t) ts from rfl] at h
      obtain ⟨hmem, hle, hall⟩ := foldl_pickLatest_spec ts t d h
      refine ⟨?_, ?_⟩
      · rcases hmem with rfl | hm
        · exact List.mem_cons_self d ts
        · exact List.mem_cons_of_mem t hm
      · intro x hx
        rcases List.mem_cons.mp hx with rfl | hx2
        · exact hle
        · exact hall x hx2
  · intro hne
    rw [hd]
    rcases hl : duraTips bs with _ | ⟨t, ts⟩
    · exact absurd hl hne
    · rw [show List.foldl pickLatest none (t :: ts) =
        List.foldl pickLatest (some t) ts from rfl]
      exact foldl_pickLatest_isSome ts t
  · intro i h
    rw [hs] at h
    obtain ⟨h1, h2, h3⟩ := foldl_stepTime_spec (duraTips bs) 0 none
    rcases h3 with heq | ⟨c, hc, e1, e2, e3⟩
    · rw [heq] at h
      exact absurd h (by simp)
    · rw [e2] at h
      refine ⟨c, hc, Option.some.injEq c.id i ▸ h.symm ▸ rfl, e3, ?_⟩
      intro x hx
      exact e1 ▸ h2 x hx
  · rintro ⟨c, hc, hpos⟩
    rw [hs]
    obtain ⟨h1, h2, h3⟩ := foldl_stepTime_spec (duraTips bs) 0 none
    rcases h3 with heq | ⟨c2, hc2, e1, e2, e3⟩
    · have := h2 c hc
      rw [heq] at this
      exact absurd (lt_of_lt_of_le hpos this) (lt_irrefl 0)
    · simp [e2]

/-- C3 counterexample: a repository with exactly one backup, a dura/
branch whose tip commit has timestamp 0. The summary path reports the
backup in its count but reports no latest commit id at all, because its
latest_time accumulator starts at 0 and only strictly greater times are
taken. -/
theorem summary_latest_missing_at_nonpositive_time :
    (backupScanSummary exBranchesZero).1 = 1 ∧
    (backupScanSummary exBranchesZero).2.2 = none := by decide

/-- Witness for latest_backup_is_max on a branch list with one positive
time dura/ tip: both views report a latest backup. -/
theorem latest_backup_is_max_witness :
    (backupScanDetailed exBranchesPos).1.isSome = true ∧
    (backupScanSummary exBranchesPos).2.2.isSome = true := by
  have h := latest_backup_is_max exBranchesPos
  refine ⟨h.2.1 (by decide), h.2.2.2 ?_⟩
  exact ⟨{ id := "c9".data, message := [], time := 5, parents := [] },
    by decide, by decide⟩


/-- Entry with one of the six checked statuses is never a CURRENT entry. -/
theorem sixChange_not_current (e : GitStatus) (h : sixChange e = true) :
    e.isCurrent = false := by
  simp only [sixChange, Bool.or_eq_true] at h
  rcases h with ((((h | h) | h) | h) | h) | h <;>
    simp [GitStatus.isCurrent, h]

/-- C2 counterexample: a repository whose only status entry is a
working-tree type change. The entry is a working-tree difference against
the current commit (not unmodified, not ignored) and the summary path
flags it, but print_repo_status reports no uncommitted changes because it
checks only the six new/modified/deleted statuses. -/
theorem typechange_difference_not_flagged :
    isDifference exTypechangeEntry = true ∧
    hasChangesSummary [exTypechangeEntry] = true ∧
    hasChangesDetailed [exTypechangeEntry] = false := by decide

/-- C2 (amended): over the status entries returned with untracked files
included and ignored files excluded, print_summary flags uncommitted
changes exactly when some entry records a difference against the current
commit; print_repo_status flags them exactly when some non-ignored entry
has one of the six new/modified/deleted statuses, which implies a
difference but misses differences that are only renames, type changes or
conflicts. -/
theorem uncommitted_changes_flags (raw : List GitStatus) :
    (hasChangesSummary raw = true ↔ ∃ e ∈ raw, isDifference e = true) ∧
    (hasChangesDetailed raw = true ↔
      ∃ e ∈ raw, (!e.ignored && sixChange e) = true) ∧
    (hasChangesDetailed raw = true → ∃ e ∈ raw, isDifference e = true) := by
  have hsum : hasChangesSummary raw = true ↔
      ∃ e ∈ raw, isDifference e = true := by
    simp only [hasChangesSummary, statusesFilter, Bool.not_eq_true',
      List.isEmpty_eq_false_iff_exists_mem]
    constructor
    · rintro ⟨e, he⟩
      rcases List.mem_filter.mp he with ⟨hmem, hcond⟩
      refine ⟨e, hmem, ?_⟩
      simp only [Bool.true_or, Bool.false_or, Bool.and_eq_true,
        Bool.not_eq_true'] at hcond
      simp [isDifference, hcond.1.2, hcond.2]
    · rintro ⟨e, hmem, hdiff⟩
      simp only [isDifference, Bool.and_eq_true, Bool.not_eq_true'] at hdiff
      refine ⟨e, List.mem_filter.mpr ⟨hmem, ?_⟩⟩
      simp [hdiff.1, hdiff.2]
  have hdet : hasChangesDetailed raw = true ↔
      ∃ e ∈ raw, (!e.ignored && sixChange e) = true := by
    simp only [hasChangesDetailed, statusesFilter, List.any_eq_true]
    constructor
    · rintro ⟨e, he, hsix⟩
      rcases List.mem_filter.mp he with ⟨hmem, hcond⟩
      simp only [Bool.true_or, Bool.false_or, Bool.and_eq_true,
        Bool.not_eq_true'] at hcond
      exact ⟨e, hmem, by simp [hcond.1.2, hsix]⟩
    · rintro ⟨e, hmem, hcond⟩
      simp only [Bool.and_eq_true, Bool.not_eq_true'] at hcond
      refine ⟨e, List.mem_filter.mpr ⟨hmem, ?_⟩, hcond.2⟩
      simp [hcond.1, sixChange_not_current e hcond.2]
  refine ⟨hsum, hdet, ?_⟩
  intro h
  rcases hdet.mp h with ⟨e, hmem, hcond⟩
  simp only [Bool.and_eq_true, Bool.not_eq_true'] at hcond
  refine ⟨e, hmem, ?_⟩
  simp [isDifference, hcond.1, sixChange_not_current e hcond.2]

/-- Witness for uncommitted_changes_flags on a one-entry list with a
working-tree modification: both paths flag uncommitted changes. -/
theorem uncommitted_changes_flags_witness :
    hasChangesSummary [{ exTypechangeEntry with
      wt_typechange := false, wt_modified := true }] = true ∧
    hasChangesDetailed [{ exTypechangeEntry with
      wt_typechange := false, wt_modified := true }] = true := by
  have h := uncommitted_changes_flags
    [{ exTypechangeEntry with wt_typechange := false, wt_modified := true }]
  refine ⟨h.1.mpr ?_, h.2.1.mpr ?_⟩
  · exact ⟨_, List.mem_cons_self _ _, by decide⟩
  · exact ⟨_, List.mem_cons_self _ _, by decide⟩


/-- Deserialization inverts serialization on string arrays. -/
theorem deStrList_map_str (l : List Str) :
    deStrList (l.map Toml.str) = some l := by
  induction l with
  | nil => rfl
  | cons s rest ih => simp [deStrList, ih]

/-- Deserialization inverts serialization on WatchConfig. -/
theorem deWatchConfig_serWatchConfig (w : WatchConfig) :
    deWatchConfig (serWatchConfig w) = some w := by
  obtain ⟨inc, exc, d, hd⟩ := w
  have hpos : (0 : Int) ≤ (d : Int) ∧ (d : Int) < 256 := by
    constructor
    · exact Int.ofNat_nonneg d
    · exact_mod_cast hd
  simp [serWatchConfig, deWatchConfig, lookupKey, deStrList_map_str, hpos,
    Fin.ext_iff]

/-- Deserialization inverts serialization entry-wise on the repos table. -/
theorem deReposEntries_map (l : List (Str × WatchConfig)) :
    deReposEntries (l.map (fun kv => (kv.1, serWatchConfig kv.2))) =
      some l := by
  induction l with
  | nil => rfl
  | cons p rest ih =>
    obtain ⟨k, w⟩ := p
    simp [deReposEntries, deWatchConfig_serWatchConfig, ih]

/-- Inserting a key greater than every key of the list appends it. -/
theorem btInsert_append_of_lt {β : Type} (k : Str) (v : β)
    (m : List (Str × β)) (h : ∀ p ∈ m, ltL p.1 k = true) :
    btInsert k v m = m ++ [(k, v)] := by
  induction m with
  | nil => rfl
  | cons p rest ih =>
    obtain ⟨k2, v2⟩ := p
    have h1 : ltL k2 k = true := h (k2, v2) (List.mem_cons_self _ _)
    have h2 : ltL k k2 = false := ltL_asymm k2 k h1
    have h3 : k ≠ k2 := by
      intro e
      subst e
      rw [ltL_irrefl] at h1
      exact Bool.false_ne_true h1
    simp [btInsert, h2, h3,
      ih (fun q hq => h q (List.mem_cons_of_mem _ hq))]

/-- Folding btInsert over a strictly key-sorted entry list rebuilds it. -/
theorem foldl_btInsert_sorted {β : Type} (m : List (Str × β))
    (h : sortedKeys m) :
    m.foldl (fun acc kv => btInsert kv.1 kv.2 acc) [] = m := by
  induction m using List.reverseRecOn with
  | nil => rfl
  | append_singleton l x ih =>
    rw [List.foldl_append]
    rcases List.pairwise_append.mp h with ⟨hl, _, hcross⟩
    rw [ih hl]
    simp only [List.foldl]
    exact btInsert_append_of_lt x.1 x.2 l
      (fun p hp => hcross p hp x (List.mem_singleton_self x))

/-- C9: saving a Config and loading the same file round-trips: the TOML
document save_to_path serializes (with absent optional author/email
omitted) deserializes back to a Config equal to the original, given the
BTreeMap invariant that the repos entry list is strictly key-sorted. -/
theorem toml_roundtrip (c : Config) (h : sortedKeys c.repos) :
    deConfig (serConfig c) = some c := by
  obtain ⟨flag, author, email, repos⟩ := c
  have hA : deReposEntries
      (repos.map (fun kv => (kv.1, serWatchConfig kv.2))) = some repos :=
    deReposEntries_map repos
  have hB : repos.foldl (fun m kv => btInsert kv.1 kv.2 m) [] = repos :=
    foldl_btInsert_sorted repos h
  rcases author with _ | a <;> rcases email with _ | e <;>
    simp [serConfig, deConfig, deBoolFieldD, deOptStrField, lookupKey,
      hA, hB]

/-- Witness for toml_roundtrip on a configuration with one author set, no
email, and two sorted repo entries. -/
theorem toml_roundtrip_witness :
    deConfig (serConfig exConfig) = some exConfig :=
  toml_roundtrip exConfig (by unfold sortedKeys; decide)

end Dura